import Mathlib

/-!
Verification of the GRAMBLE lexical-variant generator.

This file shallowly embeds the two core components of the repository:

* the Variant Expander (`GRAMBLE/script/one_make_variants.py` and
  `GRAMBLE/script/only_word_scramble.py`): `tokenize`, `is_word`,
  `strip_punct`, `normalize_key`, `segment_choices_en2xh`, `product_join`,
  `variants_for_line`, `load_dict`;
* the Dictionary Builder (`corpora/isiXhosa/dictionary/dictionary_json_maker.py`):
  the entry-start patterns, `pos_tokens_from_raw`, `split_by_semicolons`,
  `split_csv_like`, the fragment pattern cascade, `english_xh_pair_safe`,
  `is_derivative_of`, `append_senses` and `convert_blocks_to_indexed_json`.

Python strings are modelled as `List Char`; Python dicts (which preserve
insertion order) as association lists with dict-faithful insertion
(overwrite in place when the key is present, append otherwise).  The
character classes `\s`, `\w`, `\d` of the Python regexes are modelled by
their ASCII fragments, which is exact for the inputs of this domain.
All regex matching is embedded as deterministic character-level parsing;
where the Python regexes can backtrack (the `(?:[a-z]+\.\s*)+` part of the
fragment patterns followed by a mandatory `.+`), the embedding reproduces
the backtracking result explicitly (see `posPlusRest`).
-/

/-! ## Character classes (ASCII fragments of the Python regex classes) -/

/-- Python `\s` (ASCII fragment): the whitespace characters. -/
def isSpacePy (c : Char) : Bool :=
  c = ' ' || c = '\t' || c = '\n' || c = '\r' || c = '\x0b' || c = '\x0c'

def isAsciiUpper (c : Char) : Bool := 'A' ≤ c && c ≤ 'Z'

def isAsciiLower (c : Char) : Bool := 'a' ≤ c && c ≤ 'z'

def isAsciiLetter (c : Char) : Bool := isAsciiUpper c || isAsciiLower c

def isAsciiDigit (c : Char) : Bool := '0' ≤ c && c ≤ '9'

/-- Python `\w` (ASCII fragment): letters, digits and underscore. -/
def isWordCharPy (c : Char) : Bool := isAsciiLetter c || isAsciiDigit c || c = '_'

/-- The ASCII apostrophe used in the tokenizer classes. -/
def apoChar : Char := '\''

/-- The right single quotation mark U+2019 used in the tokenizer classes. -/
def rsquoChar : Char := '’'

/-! ## Python string helpers -/

/-- Both-ends strip by a character predicate (Python `str.strip(chars)`). -/
def stripBoth (p : Char → Bool) (cs : List Char) : List Char :=
  ((cs.dropWhile p).reverse.dropWhile p).reverse

/-- Python `str.strip()` (whitespace). -/
def pyStrip (cs : List Char) : List Char := stripBoth isSpacePy cs

/-- Python `str.rstrip()` (whitespace, right end only). -/
def rstripWs (cs : List Char) : List Char := (cs.reverse.dropWhile isSpacePy).reverse

/-- Python `str.rstrip(".")`: remove every trailing period. -/
def rstripDots (cs : List Char) : List Char :=
  (cs.reverse.dropWhile (fun c => c = '.')).reverse

/-- Python `str.lower()` (ASCII fragment, via `Char.toLower`). -/
def toLowerList (cs : List Char) : List Char := cs.map Char.toLower

/-- Helper for `collapseWs`: `prevWs` records whether the previous character
was whitespace (in which case further whitespace is absorbed). -/
def collapseWsAux (prevWs : Bool) : List Char → List Char
  | [] => []
  | c :: cs =>
    if isSpacePy c then
      if prevWs then collapseWsAux true cs else ' ' :: collapseWsAux true cs
    else c :: collapseWsAux false cs

/-- Python `re.sub(r"\s+", " ", s)`: collapse whitespace runs to one space. -/
def collapseWs (cs : List Char) : List Char := collapseWsAux false cs

/-- Python `str.split(sep)` for a single-character separator. -/
def splitOnChar (sep : Char) : List Char → List (List Char)
  | [] => [[]]
  | c :: cs =>
    if c = sep then [] :: splitOnChar sep cs
    else
      match splitOnChar sep cs with
      | [] => [[c]]
      | p :: ps => (c :: p) :: ps

/-- Helper for `splitWs`; `cur` is the reversed current run of
non-whitespace characters. -/
def splitWsAux (cur : List Char) : List Char → List (List Char)
  | [] => if cur.isEmpty then [] else [cur.reverse]
  | c :: cs =>
    if isSpacePy c then
      if cur.isEmpty then splitWsAux [] cs else cur.reverse :: splitWsAux [] cs
    else splitWsAux (c :: cur) cs

/-- Python `str.split()` with no argument: split on whitespace runs,
dropping empty pieces. -/
def splitWs (cs : List Char) : List (List Char) := splitWsAux [] cs

/-- Python substring test `needle in hay`. -/
def isSubstr (needle : List Char) : List Char → Bool
  | [] => needle.isEmpty
  | c :: cs => needle.isPrefixOf (c :: cs) || isSubstr needle cs

/-! ## Code-point lexicographic order on strings (Python `sorted`) -/

/-- Code-point lexicographic `≤` on char lists, exactly Python's string
comparison. -/
def lexLe : List Char → List Char → Bool
  | [], _ => true
  | _ :: _, [] => false
  | a :: as, b :: bs => if a = b then lexLe as bs else decide (a < b)

def strLeb (a b : String) : Bool := lexLe a.data b.data

/-- The propositional form of `strLeb`, used as the sorting relation. -/
def strLeRel (a b : String) : Prop := strLeb a b = true

instance : DecidableRel strLeRel := fun a b => by unfold strLeRel; infer_instance

/-- Python `sorted` on a list of strings. -/
def sortTr (l : List String) : List String := List.insertionSort strLeRel l

/-! ## Variant Expander: tokenizer (`WORD_RE.findall`) -/

/-- The word-token character class `[A-Za-z\-’']` of `WORD_RE`. -/
def isTokWordChar (c : Char) : Bool :=
  isAsciiLetter c || c = '-' || c = rsquoChar || c = apoChar

/-- Kind of the token run currently being accumulated by the tokenizer. -/
inductive RunK where
  | word
  | digit
deriving DecidableEq, Repr

/-- Tokenizer worker.  `cur` holds the kind and the reversed characters of
the run being accumulated.  Mirrors
`WORD_RE = [A-Za-z\-’']+|\d+|[^\sA-Za-z\-’'\d]` scanned by `findall`:
maximal word runs, maximal digit runs, single other non-space characters;
whitespace separates and is dropped. -/
def tokenizeAux : Option (RunK × List Char) → List Char → List String
  | none, [] => []
  | some (_, run), [] => [String.mk run.reverse]
  | cur, c :: cs =>
    if isTokWordChar c then
      match cur with
      | some (RunK.word, run) => tokenizeAux (some (RunK.word, c :: run)) cs
      | some (RunK.digit, run) => String.mk run.reverse :: tokenizeAux (some (RunK.word, [c])) cs
      | none => tokenizeAux (some (RunK.word, [c])) cs
    else if isAsciiDigit c then
      match cur with
      | some (RunK.digit, run) => tokenizeAux (some (RunK.digit, c :: run)) cs
      | some (RunK.word, run) => String.mk run.reverse :: tokenizeAux (some (RunK.digit, [c])) cs
      | none => tokenizeAux (some (RunK.digit, [c])) cs
    else
      match cur with
      | some (_, run) =>
        if isSpacePy c then String.mk run.reverse :: tokenizeAux none cs
        else String.mk run.reverse :: String.mk [c] :: tokenizeAux none cs
      | none =>
        if isSpacePy c then tokenizeAux none cs
        else String.mk [c] :: tokenizeAux none cs

/-- `tokenize(text)` of the variant scripts. -/
def tokenizePy (s : String) : List String := tokenizeAux none s.data

/-- `is_word(tok)`: the token consists solely of `[A-Za-z\-’']` and is
non-empty. -/
def isWordTok (s : String) : Bool := !s.data.isEmpty && s.data.all isTokWordChar

/-- Characters kept by `strip_punct` (`\w` plus `’`, `'`, `-`). -/
def isKeepChar (c : Char) : Bool :=
  isWordCharPy c || c = rsquoChar || c = apoChar || c = '-'

/-- `strip_punct(tok)`: strip leading and trailing non-keep characters. -/
def stripPunct (s : String) : String := String.mk (stripBoth (fun c => !isKeepChar c) s.data)

/-- `normalize_key(s)`: strip, lowercase, collapse inner whitespace. -/
def normalizeKey (cs : List Char) : List Char := collapseWs (pyStrip (toLowerList cs))

def normalizeKeyStr (s : String) : String := String.mk (normalizeKey s.data)

/-! ## Variant Expander: segmentation and product expansion -/

/-- The lookup index `en2xh`: normalized headword text to the list of known
translations (a Python `set`, modelled as a duplicate-free list whose
internal order is irrelevant — see the determinism theorem). -/
abbrev Index : Type := List (String × List String)

/-- The inner `for L in range(min(max_key_len, N - i), 0, -1)` loop of
`segment_choices_en2xh`: try spans from longest to shortest, keying on the
word tokens of the span only.  Returns the stored translation list and the
span length of the first hit. -/
def findMatch (d : Index) (toks : List String) : Nat → Option (List String × Nat)
  | 0 => none
  | L + 1 =>
    let phrase := String.intercalate " " (((toks.take (L + 1)).filter isWordTok).map stripPunct)
    match List.lookup (normalizeKeyStr phrase) d with
    | some v => some (v, L + 1)
    | none => findMatch d toks L

/-- Fuelled worker for `segment_choices_en2xh`.  The fuel starts at the
token-list length; every loop iteration consumes at least one token while
spending exactly one unit of fuel, so the fuel never runs out
(`segmentChoicesF_fuel_ge` below). -/
def segmentChoicesF (d : Index) (m : Nat) : Nat → List String → List (List String)
  | _, [] => []
  | 0, _ :: _ => []
  | fuel + 1, tok :: rest =>
    if isWordTok tok = false then [tok] :: segmentChoicesF d m fuel rest
    else
      match findMatch d (tok :: rest) (min m (rest.length + 1)) with
      | some (v, L) => sortTr v :: segmentChoicesF d m fuel ((tok :: rest).drop L)
      | none => [tok] :: segmentChoicesF d m fuel rest

/-- `segment_choices_en2xh(tokens, en2xh, max_key_len)`. -/
def segmentChoices (d : Index) (m : Nat) (toks : List String) : List (List String) :=
  segmentChoicesF d m toks.length toks

/-- The punctuation set `[,.;:!?]` of `product_join`. -/
def spacingPunct (c : Char) : Bool :=
  c = ',' || c = '.' || c = ';' || c = ':' || c = '!' || c = '?'

/-- `re.match(r"^[,.;:!?]$", choice)`: the choice is one such character. -/
def isPunctTok (s : String) : Bool :=
  match s.data with
  | [c] => spacingPunct c
  | _ => false

/-- The inline-punctuation step of `product_join`'s accumulator:
`acc[:-1] + [acc[-1] + choice]` when the choice is a lone spacing
punctuation character and `acc` is non-empty, else `acc + [choice]`. -/
def pushChoice (acc : List String) (choice : String) : List String :=
  if !acc.isEmpty && isPunctTok choice then acc.dropLast ++ [acc.getLast! ++ choice]
  else acc ++ [choice]

/-- Worker for `re.sub(r"\s+([,.;:!?])", r"\1", s)`: `ws` is the reversed
pending whitespace run, dropped when a spacing punctuation character
follows and flushed otherwise. -/
def squeezePunctAux (ws : List Char) : List Char → List Char
  | [] => ws.reverse
  | c :: cs =>
    if isSpacePy c then squeezePunctAux (c :: ws) cs
    else if spacingPunct c then c :: squeezePunctAux [] cs
    else ws.reverse ++ c :: squeezePunctAux [] cs

/-- `s = " ".join(acc); s = re.sub(r"\s+([,.;:!?])", r"\1", s)`. -/
def finalizeSent (acc : List String) : String :=
  String.mk (squeezePunctAux [] (String.intercalate " " acc).data)

/-- The `for choice in segments[idx]` loop of `product_join`'s recursion:
visit the segment's choices in order, threading the remaining emission
budget `rem = max_out - out_count`; once it reaches zero every deeper call
returns immediately (the `out_count >= max_out` guard), so nothing more is
emitted. -/
def pjStep (next : List String → Nat → List String × Nat) :
    List String → List String → Nat → List String × Nat
  | [], _, rem => ([], rem)
  | c :: cs, acc, rem =>
    if rem = 0 then ([], 0)
    else
      let q := next (pushChoice acc c) rem
      let p := pjStep next cs acc q.2
      (q.1 ++ p.1, p.2)

/-- The recursion `rec(idx, acc)` of `product_join`, with the global
`out_count` counter represented by the remaining budget `rem =
max_out - out_count`. -/
def pjRec : List (List String) → List String → Nat → List String × Nat
  | [], acc, rem => if rem = 0 then ([], 0) else ([finalizeSent acc], rem - 1)
  | seg :: rest, acc, rem => pjStep (fun a r => pjRec rest a r) seg acc rem

/-- `list(product_join(segments, max_out))`. -/
def productJoin (segs : List (List String)) (maxOut : Nat) : List String :=
  (pjRec segs [] maxOut).1

/-- The per-sentence computation of the FLORES driver `one_make_variants.py`
(lines 96–99): tokenize, segment, expand.  There is no empty-line guard. -/
def expandTokens (d : Index) (m cap : Nat) (toks : List String) : List String :=
  productJoin (segmentChoices d m toks) cap

def expandSentence (d : Index) (m cap : Nat) (line : String) : List String :=
  expandTokens d m cap (tokenizePy line)

/-- `variants_for_line(line)` of `only_word_scramble.py` (en2xh direction):
strip the line, return `[]` if it is empty, else tokenize and expand. -/
def variantsForLine (d : Index) (m cap : Nat) (line : String) : List String :=
  let l := pyStrip line.data
  if l.isEmpty then [] else expandTokens d m cap (tokenizeAux none l)

/-! ## Dictionary Builder: entry-start patterns -/

/-- Continuation characters of an uppercase head: `[A-Za-z\-’']`. -/
def upperTailChar (c : Char) : Bool :=
  isAsciiLetter c || c = '-' || c = rsquoChar || c = apoChar

/-- Continuation characters of a lowercase head: `[a-z\-’']`. -/
def lowerTailChar (c : Char) : Bool :=
  isAsciiLower c || c = '-' || c = rsquoChar || c = apoChar

/-- `\s*,\s*`: optional whitespace, a comma, optional whitespace. -/
def expectCommaWs (cs : List Char) : Option (List Char) :=
  match cs.dropWhile isSpacePy with
  | ',' :: r => some (r.dropWhile isSpacePy)
  | _ => none

/-- One unit `[a-z]+\.\s*` of a POS sequence: the (maximal, non-empty)
lowercase run, the period, and the (maximal) trailing whitespace.  Returns
`((run, ws), rest)`.  Maximality is forced: the run cannot backtrack since
a shorter run would still have to be followed by `.` but is followed by a
lowercase letter. -/
def parsePosUnit (cs : List Char) : Option ((List Char × List Char) × List Char) :=
  let run := cs.takeWhile isAsciiLower
  if run.isEmpty then none
  else
    match cs.dropWhile isAsciiLower with
    | '.' :: r2 => some ((run, r2.takeWhile isSpacePy), r2.dropWhile isSpacePy)
    | _ => none

/-- Greedy `(?:[a-z]+\.\s*)+`: as many units as parse, then the remainder.
Fuelled; each unit consumes at least two characters, so fuel
`cs.length + 1` never runs out. -/
def parsePosLoopF : Nat → List Char → List (List Char × List Char) × List Char
  | 0, cs => ([], cs)
  | fuel + 1, cs =>
    match parsePosUnit cs with
    | none => ([], cs)
    | some (u, rest) =>
      let p := parsePosLoopF fuel rest
      (u :: p.1, p.2)

def parsePosLoop (cs : List Char) : List (List Char × List Char) × List Char :=
  parsePosLoopF (cs.length + 1) cs

/-- The text spanned by a list of POS units. -/
def unitsText (us : List (List Char × List Char)) : List Char :=
  (us.map (fun u => u.1 ++ '.' :: u.2)).flatten

/-- `(?P<pos>(?:[a-z]+\.\s*)+)(?P<body>.*)$` of the entry-start patterns:
greedy units, the rest is the body (possibly empty; `.*` never forces
backtracking). -/
def posPlusBody (cs : List Char) : Option (List Char × List Char) :=
  let p := parsePosLoop cs
  if p.1.isEmpty then none else some (unitsText p.1, p.2)

/-- `(?P<pos>(?:[a-z]+\.\s*)+)\s*(?P<rest>.+)$` of the fragment patterns.
If the greedy units leave a non-empty remainder, that remainder is the
rest (it cannot start with whitespace, since each unit swallows trailing
whitespace).  If the units consume everything, the regex engine
backtracks: it first gives back one character of the last unit's trailing
whitespace (the rest becomes that single space), and failing that it drops
the last unit entirely (the rest becomes that unit's text), requiring at
least one unit to remain. -/
def posPlusRest (cs : List Char) : Option (List Char × List Char) :=
  let p := parsePosLoop cs
  match p.1.getLast? with
  | none => none
  | some lastU =>
    if !p.2.isEmpty then some (unitsText p.1, p.2)
    else if !lastU.2.isEmpty then
      some (unitsText (p.1.dropLast ++ [(lastU.1, lastU.2.dropLast)]), [lastU.2.getLast!])
    else if 2 ≤ p.1.length then some (unitsText p.1.dropLast, lastU.1 ++ ['.'])
    else none

/-- One of `ENTRY_START_UPPER` / `ENTRY_START_LOWER` (selected by `upper`):
head run, `\s*,\s*`, POS units, body.  Returns `(head, pos_raw, body)`. -/
def matchEntryP (upper : Bool) (cs : List Char) : Option (String × List Char × List Char) :=
  match cs with
  | [] => none
  | c :: rest =>
    if (if upper then isAsciiUpper c else isAsciiLower c) then
      let tailP := if upper then upperTailChar else lowerTailChar
      match expectCommaWs (rest.dropWhile tailP) with
      | none => none
      | some r2 =>
        match posPlusBody r2 with
        | none => none
        | some (pos, body) => some (String.mk (c :: rest.takeWhile tailP), pos, body)
    else none

/-- `match_entry(line)`.  The two `HEAD_ONLY` patterns are subsumed: their
prefix is identical to the corresponding `START` pattern and `START`'s
body group is `.*`, so whenever a `HEAD_ONLY` pattern matches the `START`
pattern has already matched (with an empty body); `has_body` is therefore
always true on a match. -/
def matchEntry (cs : List Char) : Option (String × List Char × List Char) :=
  (matchEntryP true cs).orElse (fun _ => matchEntryP false cs)

/-! ## Dictionary Builder: POS normalization -/

/-- The `POS_SHORT` table, in Python dict insertion order. -/
def POS_SHORT : List (String × String) :=
  [("a.", "a"), ("adj.", "a"),
   ("adv.", "adv"),
   ("n.", "n"),
   ("v.", "v"),
   ("v. t.", "v t"), ("v.t.", "v t"),
   ("v. i.", "v i"), ("v.i.", "v i"),
   ("v. aux.", "v"),
   ("prep.", "prep"), ("conj.", "conj"),
   ("intj.", "intj"), ("pron.", "pron"), ("pr.", "pron")]

/-- `sorted(POS_SHORT, key=len, reverse=True)`: the keys ordered by length,
descending, ties keeping dict insertion order (Python's sort is stable). -/
def POS_SHORT_BY_LEN : List String :=
  ["v. aux.",
   "v. t.", "v. i.", "prep.", "conj.", "intj.", "pron.",
   "adj.", "adv.", "v.t.", "v.i.",
   "pr.",
   "a.", "n.", "v."]

/-- `pos_tokens_from_raw(pos_raw)`: collapse whitespace, look up the exact
key, else the longest known key occurring as a substring, else pass the
text through; split the short form into tokens, `[""]` if none. -/
def posTokensFromRaw (posRaw : List Char) : List String :=
  let s := collapseWs (pyStrip posRaw)
  let short :=
    match List.lookup (String.mk s) POS_SHORT with
    | some v => v
    | none =>
      match POS_SHORT_BY_LEN.find? (fun key : String => isSubstr key.data s) with
      | some key => (List.lookup key POS_SHORT).getD (String.mk s)
      | none => String.mk s
  let toks := (splitWs short.data).map String.mk
  if toks.isEmpty then [""] else toks

/-! ## Dictionary Builder: fragment helpers -/

def isSpaceOrSemi (c : Char) : Bool := c = ' ' || c = ';'

/-- `split_by_semicolons(text)`. -/
def splitBySemicolons (text : List Char) : List (List Char) :=
  let t := pyStrip text
  let t2 := if t.getLast? = some '.' then rstripWs t.dropLast else t
  ((splitOnChar ';' t2).map (stripBoth isSpaceOrSemi)).filter (fun p => !p.isEmpty)

def isSpaceOrComma (c : Char) : Bool := c = ' ' || c = ','

/-- `split_csv_like(text)`. -/
def splitCsvLike (text : List Char) : List (List Char) :=
  ((splitOnChar ',' text).map (stripBoth isSpaceOrComma)).filter (fun p => !p.isEmpty)

/-- `\((?P<desc>[^)]+)\)`: a parenthesised non-empty description; the
greedy `[^)]+` stops exactly at the first closing parenthesis. -/
def parseParenDesc (cs : List Char) : Option (List Char × List Char) :=
  match cs with
  | '(' :: r =>
    let desc := r.takeWhile (fun c => c ≠ ')')
    if desc.isEmpty then none
    else
      match r.dropWhile (fun c => c ≠ ')') with
      | ')' :: r2 => some (desc, r2)
      | _ => none
  | _ => none

/-- `PAREN_DESC_THEN_POS_RE`: `^\((desc)\)\s*,\s*(pos)\s*(rest)$`. -/
def parseFrag1 (frag : List Char) : Option (List Char × List Char × List Char) :=
  match parseParenDesc frag with
  | none => none
  | some (desc, r2) =>
    match expectCommaWs r2 with
    | none => none
    | some r3 =>
      match posPlusRest r3 with
      | none => none
      | some (pos, rest) => some (desc, pos, rest)

/-- `DESC_THEN_POS_RE`: `^(?P<desc>[^,]+?)\s*,\s*(pos)\s*(rest)$`.  The lazy
`[^,]+?` cannot cross a comma, so the split is at the first comma; the
minimal description is the prefix with its trailing whitespace given to
`\s*` — unless that leaves it empty, in which case it keeps exactly its
first character (necessarily whitespace). -/
def parseFrag2 (frag : List Char) : Option (List Char × List Char × List Char) :=
  let pre := frag.takeWhile (fun c => c ≠ ',')
  if pre.isEmpty then none
  else
    match frag.dropWhile (fun c => c ≠ ',') with
    | ',' :: r =>
      let desc := if (rstripWs pre).isEmpty then [pre.headD ' '] else rstripWs pre
      match posPlusRest (r.dropWhile isSpacePy) with
      | none => none
      | some (pos, rest) => some (desc, pos, rest)
    | _ => none

/-- `INLINE_POS_RE`: `^(pos)\s*(rest)$` at the start of the fragment. -/
def parseFrag3 (frag : List Char) : Option (List Char × List Char) :=
  posPlusRest frag

/-- `PAREN_DESC_RE`: `^\((desc)\)\s*,\s*(?P<rest>.+)$`.  If everything after
the comma is whitespace, the greedy `\s*` gives back one character so that
`.+` matches that single trailing space. -/
def parseFrag4 (frag : List Char) : Option (List Char × List Char) :=
  match parseParenDesc frag with
  | none => none
  | some (desc, r2) =>
    match r2.dropWhile isSpacePy with
    | ',' :: t =>
      if t.isEmpty then none
      else
        let t2 := t.dropWhile isSpacePy
        some (desc, if t2.isEmpty then [t.getLast!] else t2)
    | _ => none

/-! ## Dictionary Builder: the fallback pair heuristic -/

/-- The alternatives of `POS_TOKEN_IN_LEFT_RE`, lowercase. -/
def POS_LEFT_WORDS : List String :=
  ["a", "adj", "adv", "n", "v", "prep", "conj", "intj", "pron", "pr"]

/-- Case-insensitive match of word `w` at the head of `cs`, followed by a
period. -/
def ciMatchDot (w : List Char) (cs : List Char) : Bool :=
  match w, cs with
  | [], '.' :: _ => true
  | [], _ => false
  | _ :: _, [] => false
  | a :: ws, c :: cs2 => a = c.toLower && ciMatchDot ws cs2

def posAltAt (cs : List Char) : Bool := POS_LEFT_WORDS.any (fun w => ciMatchDot w.data cs)

/-- Scan for `\b(?:a|adj|adv|n|v|prep|conj|intj|pron|pr)\.` (IGNORECASE):
`prevWord` tracks whether the previous character was a `\w` character
(every alternative starts with a letter, so `\b` holds exactly when the
previous character is not a word character or we are at the start). -/
def posTokenSearchAux (prevWord : Bool) : List Char → Bool
  | [] => false
  | c :: cs => (!prevWord && posAltAt (c :: cs)) || posTokenSearchAux (isWordCharPy c) cs

/-- `POS_TOKEN_IN_LEFT_RE.search(left)` as a boolean. -/
def posTokenInLeft (cs : List Char) : Bool := posTokenSearchAux false cs

/-- `fragment.rsplit(",", 1)` (requires a comma to be present; with no
comma it returns the fragment unsplit, a case the caller has excluded). -/
def splitAtLastComma (cs : List Char) : List Char × List Char :=
  let rpost := cs.reverse.takeWhile (fun c => c ≠ ',')
  match cs.reverse.dropWhile (fun c => c ≠ ',') with
  | ',' :: r => (r.reverse, rpost.reverse)
  | _ => (cs, [])

/-- `english_xh_pair_safe(fragment)`. -/
def englishXhPairSafe (frag : List Char) : Option (List Char × List Char) :=
  let n := frag.count ','
  if n = 0 then none
  else if 3 ≤ n then none
  else
    let p := splitAtLastComma frag
    let left := pyStrip p.1
    let right := pyStrip p.2
    if posTokenInLeft left then none
    else if !(left.all (fun c => c.toNat < 128) && left.any isAsciiLetter) then none
    else if right.isEmpty then none
    else some (left, right)

/-! ## Dictionary Builder: derivative merging -/

def DERIV_SUFFIXES : List (List Char) :=
  ["ed".data, "ing".data, "er".data, "ers".data, "ment".data, "ments".data]

/-- `is_derivative_of(prev_head, this_head)`. -/
def isDerivativeOf (prevHead thisHead : String) : Bool :=
  if prevHead.data.isEmpty then false
  else
    let p := toLowerList prevHead.data
    let t := toLowerList thisHead.data
    p.isPrefixOf t && DERIV_SUFFIXES.contains (t.drop p.length)

/-! ## Dictionary Builder: entry store -/

/-- One sense record: the Python dict
`{"syntax": syn, "description": description, "translation": {"xh": xh}}`
(every sense written by the builder has exactly the one target language
`xh`; `syntax` is a reserved word in Lean, hence the field name `syn`). -/
structure Sense where
  syn : String
  description : String
  xh : String
deriving DecidableEq, Repr

/-- One entry: `word_name` plus the `sense_<n>` keys, kept as an ordered
association list from the numeric part `n` to the sense, in dict insertion
order. -/
structure Entry where
  word_name : String
  senses : List (Nat × Sense)
deriving DecidableEq, Repr

/-- The output store: outer key `word_<n>` modelled by its numeric part
`n`, in dict insertion order. -/
abbrev Store : Type := List (Nat × Entry)

/-- Python dict assignment `obj[f"sense_{k}"] = s`: overwrite in place if
the key exists, append otherwise. -/
def senseInsert (l : List (Nat × Sense)) (k : Nat) (s : Sense) : List (Nat × Sense) :=
  if l.any (fun p => p.1 = k) then l.map (fun p => if p.1 = k then (k, s) else p)
  else l ++ [(k, s)]

/-- Python dict assignment `output[f"word_{k}"] = e`. -/
def storeInsert (out : Store) (k : Nat) (e : Entry) : Store :=
  if out.any (fun p => p.1 = k) then out.map (fun p => if p.1 = k then (k, e) else p)
  else out ++ [(k, e)]

/-- In-place update `output[key]` (the key always exists when the builder
updates; on a missing key the model is a no-op where Python would raise
`KeyError`, a case the invariants exclude). -/
def storeUpdate (out : Store) (k : Nat) (f : Entry → Entry) : Store :=
  out.map (fun p => if p.1 = k then (k, f p.2) else p)

/-- The `while f"sense_{k}" in obj: k += 1` search for the first free sense
index, fuelled (by pigeonhole the first free positive index is at most
`keys.length + 1`, so the fuel suffices). -/
def firstFreeAux (keys : List Nat) : Nat → Nat → Nat
  | k, 0 => k
  | k, fuel + 1 => if keys.contains k then firstFreeAux keys (k + 1) fuel else k

def firstFree (keys : List Nat) : Nat := firstFreeAux keys 1 (keys.length + 1)

/-- `append_senses(to_key, senses)` on one entry: find the first free
index, then assign the senses at consecutive indices. -/
def appendSenses (e : Entry) (ss : List Sense) : Entry :=
  ⟨e.word_name,
   (ss.foldl (fun p s => (senseInsert p.1 p.2 s, p.2 + 1))
      (e.senses, firstFree (e.senses.map Prod.fst))).1⟩

/-- Building a fresh entry object:
`obj = {"word_name": head}; obj[f"sense_{i}"] = s for i, s in enumerate(senses, 1)`. -/
def mkEntry (head : String) (ss : List Sense) : Entry :=
  ⟨head, (List.range' 1 ss.length).zip ss⟩

/-! ## Dictionary Builder: the fragment cascade and main loop -/

/-- The outcome of one fragment of a block body: senses for the current
head, a standalone cross-reference entry (pattern 6), or nothing. -/
inductive FragResult where
  | senses (ss : List Sense)
  | entry (en : String) (xh : String)
  | nothing
deriving DecidableEq, Repr

/-- `for xh in items: for tok in pos_toks: append sense`. -/
def mkSenses (posToks : List String) (desc : String) (items : List (List Char)) : List Sense :=
  (items.map (fun xh => posToks.map (fun tk => ⟨tk, desc, String.mk xh⟩))).flatten

/-- `rest.strip().rstrip(".")` split as a comma list. -/
def csvItems (rest : List Char) : List (List Char) :=
  splitCsvLike (rstripDots (pyStrip rest))

/-- The prioritized pattern cascade applied to one fragment (first match
wins, exactly the `continue`-chained order of the source). -/
def parseFragment (headerToks : List String) (frag : List Char) : FragResult :=
  match parseFrag1 frag with
  | some (desc, pos, rest) =>
    .senses (mkSenses (posTokensFromRaw pos) (String.mk (pyStrip desc)) (csvItems rest))
  | none =>
  match parseFrag2 frag with
  | some (desc, pos, rest) =>
    .senses (mkSenses (posTokensFromRaw pos) (String.mk (pyStrip desc)) (csvItems rest))
  | none =>
  match parseFrag3 frag with
  | some (pos, rest) =>
    .senses (mkSenses (posTokensFromRaw pos) "" (csvItems rest))
  | none =>
  match parseFrag4 frag with
  | some (desc, rest) =>
    .senses (mkSenses headerToks (String.mk (pyStrip desc)) (csvItems rest))
  | none =>
  let plainItems := splitCsvLike (rstripDots frag)
  if !plainItems.isEmpty then .senses (mkSenses headerToks "" plainItems)
  else
    match englishXhPairSafe frag with
    | some (l, r) => .entry (String.mk l) (String.mk r)
    | none => .nothing

/-- One fragment's effect on `(senses_here, output, idx)`. -/
def fragStep (headerToks : List String) (st : List Sense × Store × Nat) (frag : List Char) :
    List Sense × Store × Nat :=
  match parseFragment headerToks frag with
  | .senses ss => (st.1 ++ ss, st.2.1, st.2.2)
  | .entry en xh => (st.1, storeInsert st.2.1 st.2.2 ⟨en, [(1, ⟨"", "", xh⟩)]⟩, st.2.2 + 1)
  | .nothing => st

/-- The loop state of `convert_blocks_to_indexed_json`: the store, the next
synthetic id, and the `last_main_key` / `last_main_head` bookkeeping. -/
structure BState where
  output : Store
  idx : Nat
  lastMainKey : Option Nat
  lastMainHead : Option String
deriving DecidableEq, Repr

def initState : BState := ⟨[], 1, none, none⟩

/-- The fragment loop of one block: `if body:` run the cascade over the
semicolon fragments, accumulating `(senses_here, output, idx)`. -/
def blockFrags (headerToks : List String) (body : List Char) (out : Store) (idx : Nat) :
    List Sense × Store × Nat :=
  if !body.isEmpty then (splitBySemicolons body).foldl (fragStep headerToks) ([], out, idx)
  else ([], out, idx)

/-- The placement step of one block (source lines 209–227): merge the
parsed senses into the last main entry when the derivative rule applies,
else create a fresh entry; a senseless block only refreshes
`last_main_head`. -/
def placeSenses (st : BState) (head : String) (sensesHere : List Sense)
    (out1 : Store) (idx1 : Nat) : BState :=
  let isLower := match head.data with
    | c :: _ => isAsciiLower c
    | [] => false
  let shouldMerge := isLower &&
    (match st.lastMainHead with
     | some h => !h.data.isEmpty && isDerivativeOf h head
     | none => false)
  if !sensesHere.isEmpty then
    if shouldMerge && st.lastMainKey.isSome then
      { output := storeUpdate out1 (st.lastMainKey.getD 0) (fun e => appendSenses e sensesHere),
        idx := idx1, lastMainKey := st.lastMainKey, lastMainHead := st.lastMainHead }
    else
      { output := storeInsert out1 idx1 (mkEntry head sensesHere), idx := idx1 + 1,
        lastMainKey := some idx1, lastMainHead := some head }
  else
    { output := out1, idx := idx1, lastMainKey := st.lastMainKey, lastMainHead := some head }

/-- One iteration of the `for block in blocks` loop. -/
def processBlock (st : BState) (block : String) : BState :=
  match matchEntry block.data with
  | none => st
  | some (head, posRaw, bodyRaw) =>
    let r := blockFrags (posTokensFromRaw posRaw) (pyStrip bodyRaw) st.output st.idx
    placeSenses st head r.1 r.2.1 r.2.2

/-- `convert_blocks_to_indexed_json(blocks)`. -/
def convertBlocks (blocks : List String) : Store :=
  (blocks.foldl processBlock initState).output

/-! ## Lookup-index build (`load_dict` of `one_make_variants.py`) -/

/-- A fragment of JSON sufficient for the raw entry store: strings and
objects (ordered key/value lists, as `json.load` produces for dicts). -/
inductive JVal where
  | jstr : String → JVal
  | jobj : List (String × JVal) → JVal

/-- Python `dict.get(key)` on an object's field list. -/
def jGet (fields : List (String × JVal)) (k : String) : Option JVal :=
  (fields.find? (fun p => p.1 = k)).map Prod.snd

/-- `en2xh.setdefault(key, set()).add(xh)`: the sets are modelled as
duplicate-free lists (their internal order never matters; the expander
sorts them before use). -/
def addPairIdx (acc : List (String × List String)) (key xh : String) :
    List (String × List String) :=
  if acc.any (fun p => p.1 = key) then
    acc.map (fun p => if p.1 = key then (p.1, if p.2.contains xh then p.2 else p.2 ++ [xh]) else p)
  else acc ++ [(key, [xh])]

/-- The `for k, v in obj.items()` loop of `load_dict` for one entry.
`enHead` is the raw `obj.get("word_name", "")` value; Python only touches
it (`normalize_key(en_head)`) when a sense actually contributes an `xh`,
raising `AttributeError` at that point if it is not a string.  The other
error cases: a `sense_` value that is not an object (`v.get` raises), a
`translation` value that is not an object (`.get` raises), and a non-empty
object as `xh` (truthy, but unhashable for `set.add`; an empty object is
falsy and skipped like a missing value). -/
def loadSenses (enHead : JVal) (acc : List (String × List String)) :
    List (String × JVal) → Except String (List (String × List String))
  | [] => .ok acc
  | (k, v) :: rest =>
    if "sense_".data.isPrefixOf k.data then
      match v with
      | .jstr _ => .error "AttributeError: sense value is not an object"
      | .jobj sf =>
        match jGet sf "translation" with
        | none => loadSenses enHead acc rest
        | some (.jstr _) => .error "AttributeError: translation is not an object"
        | some (.jobj tf) =>
          match jGet tf "xh" with
          | none => loadSenses enHead acc rest
          | some (.jobj o) =>
            if o.isEmpty then loadSenses enHead acc rest
            else .error "TypeError: unhashable xh value"
          | some (.jstr x) =>
            if x.data.isEmpty then loadSenses enHead acc rest
            else
              match enHead with
              | .jstr s => loadSenses enHead (addPairIdx acc (normalizeKeyStr s) x) rest
              | .jobj _ => .error "AttributeError: word_name is not a string"
    else loadSenses enHead acc rest

/-- The outer `for _, obj in data.items()` loop of `load_dict`. -/
def loadEntries (acc : List (String × List String)) :
    List (String × JVal) → Except String (List (String × List String))
  | [] => .ok acc
  | (_, obj) :: rest =>
    match obj with
    | .jstr _ => .error "AttributeError: entry value is not an object"
    | .jobj fields =>
      match loadSenses ((jGet fields "word_name").getD (.jstr "")) acc fields with
      | .error e => .error e
      | .ok acc2 => loadEntries acc2 rest

/-- `load_dict`: build the index, then
`max((len(k.split()) for k in en2xh.keys()), default=1)`. -/
def loadDict (data : List (String × JVal)) :
    Except String (List (String × List String) × Nat) :=
  match loadEntries [] data with
  | .error e => .error e
  | .ok en2xh =>
    let lens := en2xh.map (fun p => (splitWs p.1.data).length)
    .ok (en2xh, match lens with | [] => 1 | l :: ls => ls.foldl max l)

/-- Shape of an `xh` value that `load_dict` tolerates. -/
def xhOk : Option JVal → Bool
  | none => true
  | some (.jstr _) => true
  | some (.jobj o) => o.isEmpty

/-- Shape of a `translation` value that `load_dict` tolerates. -/
def transOk : Option JVal → Bool
  | none => true
  | some (.jstr _) => false
  | some (.jobj tf) => xhOk (jGet tf "xh")

/-- Shape of a `sense_` value that `load_dict` tolerates. -/
def senseOk : JVal → Bool
  | .jstr _ => false
  | .jobj sf => transOk (jGet sf "translation")

/-- Shape of a `word_name` value that `load_dict` tolerates. -/
def wordNameOk : Option JVal → Bool
  | none => true
  | some (.jstr _) => true
  | some (.jobj _) => false

/-- Shape of one entry value that `load_dict` tolerates. -/
def entryOk : JVal → Bool
  | .jstr _ => false
  | .jobj fields =>
    wordNameOk (jGet fields "word_name") &&
      fields.all (fun kv => !("sense_".data.isPrefixOf kv.1.data) || senseOk kv.2)

/-- A raw store is well-shaped when every entry value is.  Note this makes
no demand that any key be present: missing `word_name` and missing
`translation` are well-shaped. -/
def wellShaped (data : List (String × JVal)) : Bool := data.all (fun kv => entryOk kv.2)

/-! # Claim C2 (corrected) -/

/-- **C2, counterexample.**  The claim states that the single block
`"play, v. i. dlala;"` produces one entry whose `sense_1` is
`{syntax: "v i", description: "", translation: {"xh": "dlala"}}`.  It does
not: `pos_tokens_from_raw` normalizes `"v. i."` to `"v i"` and then splits
it into the two tokens `"v"` and `"i"`, and the cascade emits one sense
per (POS token × list item) pair, so the entry has two senses with syntax
`"v"` and `"i"` — not one sense with syntax `"v i"`. -/
theorem c2_play_claim_false :
    convertBlocks ["play, v. i. dlala;"] ≠
      [(1, ⟨"play", [(1, ⟨"v i", "", "dlala"⟩)]⟩)] := by decide

/-- **C2, amended.**  The single block `"play, v. i. dlala;"` produces
exactly one entry with `word_name = "play"` and two senses,
`sense_1 = {syntax: "v", description: "", translation: {"xh": "dlala"}}`
and `sense_2 = {syntax: "i", ...}` (the normalized POS `"v i"` yields one
sense per token); when the block `"played, v. i. dlalwe;"` immediately
follows, its two senses are appended as `sense_3` and `sense_4` under the
same `play` entry rather than creating a new entry. -/
theorem c2_play_amended :
    convertBlocks ["play, v. i. dlala;"] =
      [(1, ⟨"play", [(1, ⟨"v", "", "dlala"⟩), (2, ⟨"i", "", "dlala"⟩)]⟩)] ∧
    convertBlocks ["play, v. i. dlala;", "played, v. i. dlalwe;"] =
      [(1, ⟨"play", [(1, ⟨"v", "", "dlala"⟩), (2, ⟨"i", "", "dlala"⟩),
                     (3, ⟨"v", "", "dlalwe"⟩), (4, ⟨"i", "", "dlalwe"⟩)]⟩)] :=
  ⟨by decide, by decide⟩

/-! # Claim C3 (corrected) -/

/-- **C3, counterexample.**  The claim states that non-word tokens are
never consumed or dropped by a dictionary phrase match.  With the index
`{"a b": {"x"}, "a b c": {"y"}}` (max key length 3) and the token list
`["a", ",", "b"]`, the length-3 span starting at `"a"` is keyed on its
word tokens only (`"a b"`), matches, and advances past all three tokens:
the output is the single choice segment `["x"]` and the punctuation token
`","` appears in no segment. -/
theorem c3_punct_claim_false :
    segmentChoices [("a b", ["x"]), ("a b c", ["y"])] 3 ["a", ",", "b"] = [["x"]] ∧
    [","] ∉ segmentChoices [("a b", ["x"]), ("a b c", ["y"])] 3 ["a", ",", "b"] :=
  ⟨by decide, by decide⟩

/-- **C3, amended.**  A non-word token at the current scan position always
becomes its own singleton segment equal to itself and is never looked up
in the dictionary; however (per the counterexample) a phrase match that
begins at an earlier word token may span non-word tokens, which are
filtered out of the lookup key and skipped when the match advances. -/
theorem c3_punct_amended (d : Index) (m : Nat) (tok : String) (rest : List String)
    (h : isWordTok tok = false) :
    segmentChoices d m (tok :: rest) = [tok] :: segmentChoices d m rest := by
  simp [segmentChoices, segmentChoicesF, h]

/-- Witness for `c3_punct_amended` at the punctuation token `","`. -/
theorem c3_punct_amended_witness :
    isWordTok "," = false ∧
    segmentChoices [] 1 [",", "a"] = [","] :: segmentChoices [] 1 ["a"] :=
  ⟨by decide, c3_punct_amended [] 1 "," ["a"] (by decide)⟩

/-! # Claim C4 (corrected) -/

/-- **C4, counterexample.**  The claim states that for every lookup index
and cap, an empty input sentence produces an empty output sequence.  In
the FLORES driver (`one_make_variants.py`, which runs `product_join` on
the segments of the tokenized sentence with no empty-line guard), an empty
sentence tokenizes to no tokens, giving no segments, and the product
expansion of zero segments emits exactly one variant — the empty string —
not an empty sequence. -/
theorem c4_empty_claim_false :
    expandSentence [] 1 5 "" = [""] ∧ expandSentence [] 1 5 "" ≠ [] :=
  ⟨by decide, by decide⟩

/-- **C4, amended.**  The scramble driver's `variants_for_line` (which
guards empty lines) produces an empty output sequence, without error, on
the empty input sentence for every lookup index and cap; the FLORES
driver's per-sentence expansion instead emits exactly one empty-string
variant whenever the cap is positive. -/
theorem c4_empty_amended :
    (∀ (d : Index) (m cap : Nat), variantsForLine d m cap "" = []) ∧
    (∀ (d : Index) (m cap : Nat), 0 < cap → expandSentence d m cap "" = [""]) := by
  constructor
  · intro d m cap
    have h : (pyStrip "".data).isEmpty = true := by decide
    simp [variantsForLine, h]
  · intro d m cap hc
    have hne : cap ≠ 0 := Nat.pos_iff_ne_zero.mp hc
    have ht : tokenizePy "" = [] := by decide
    have hf : finalizeSent [] = "" := by decide
    simp [expandSentence, expandTokens, ht, segmentChoices, segmentChoicesF,
      productJoin, pjRec, hne, hf]

/-- Witness for `c4_empty_amended` at a concrete index and cap. -/
theorem c4_empty_amended_witness :
    variantsForLine [] 1 5 "" = [] ∧ expandSentence [] 1 5 "" = [""] :=
  ⟨c4_empty_amended.1 [] 1 5, c4_empty_amended.2 [] 1 5 (by decide)⟩

/-! # Claim C10 (confirmed) -/

/-- **C10.**  A block that parses zero senses (here `"work, n."`) updates
only the remembered last-main headword, leaving the merge-target key
pointing at the most recently created entry.  First scenario: after
`"Xx, n. foo;"` created entry 1 and `"work, n."` parsed no senses, the
derivative block `"worked, v. dlalwe;"` merges its sense into entry 1 —
whose `word_name` is `"Xx"`, a different headword.  Second scenario: when
the senseless `"work, n."` comes first, no entry exists yet, so the
derivative block creates a new entry even though the merge condition
held. -/
theorem c10_senseless_block_quirk :
    convertBlocks ["Xx, n. foo;", "work, n.", "worked, v. dlalwe;"] =
      [(1, ⟨"Xx", [(1, ⟨"n", "", "foo"⟩), (2, ⟨"v", "", "dlalwe"⟩)]⟩)] ∧
    convertBlocks ["work, n.", "worked, v. dlalwe;"] =
      [(1, ⟨"worked", [(1, ⟨"v", "", "dlalwe"⟩)]⟩)] :=
  ⟨by decide, by decide⟩

/-! # Claim C8 (corrected): the counterexample -/

/-- **C8, counterexample.**  The claim states that the lookup-index build
raises exactly when the store is structurally invalid, naming a missing
`word_name` as invalid.  This store has an entry with no `word_name` key,
yet `load_dict` succeeds: `obj.get("word_name", "")` defaults to the empty
headword, whose normalized key `""` indexes the translation, and the
maximum key word-count is 0. -/
theorem c8_load_claim_false :
    loadDict [("word_1", JVal.jobj [("sense_1", JVal.jobj
        [("translation", JVal.jobj [("xh", JVal.jstr "dlala")])])])] =
      Except.ok ([("", ["dlala"])], 0) := rfl

/-! # Claim C1 (confirmed) -/

/-- The emission count and budget-consumption law of one choice loop,
given that the continuation satisfies the law with product `P`. -/
theorem pjStep_spec (next : List String → Nat → List String × Nat) (P : Nat)
    (hnext : ∀ a r, (next a r).1.length = min r P ∧ (next a r).2 = r - min r P) :
    ∀ (cs acc : List String) (rem : Nat),
      (pjStep next cs acc rem).1.length = min rem (cs.length * P) ∧
      (pjStep next cs acc rem).2 = rem - min rem (cs.length * P) := by
  intro cs
  induction cs with
  | nil => intro acc rem; simp [pjStep]
  | cons c cs ihc =>
    intro acc rem
    by_cases hr : rem = 0
    · subst hr; simp [pjStep]
    · have hq := hnext (pushChoice acc c) rem
      have hp := ihc acc ((next (pushChoice acc c) rem).2)
      simp only [pjStep, if_neg hr, List.length_append]
      rw [hq.1, hq.2] at *
      rw [hp.1, hp.2]
      constructor <;> · simp only [List.length_cons, Nat.succ_mul]; omega

/-- The emission count and budget-consumption law of `product_join`'s
recursion: starting from any accumulator and budget `rem`, exactly
`min rem (∏ lengths)` strings are emitted. -/
theorem pjRec_spec : ∀ (segs : List (List String)) (acc : List String) (rem : Nat),
    (pjRec segs acc rem).1.length = min rem ((segs.map List.length).prod) ∧
    (pjRec segs acc rem).2 = rem - min rem ((segs.map List.length).prod) := by
  intro segs
  induction segs with
  | nil =>
    intro acc rem
    cases rem with
    | zero => simp [pjRec]
    | succ n => constructor <;> simp [pjRec]
  | cons seg rest ih =>
    intro acc rem
    have h := pjStep_spec (fun a r => pjRec rest a r) ((rest.map List.length).prod)
      (fun a r => ih a r) seg acc rem
    simpa [pjRec, List.prod_cons] using h

/-- **C1.**  For every list of segments, each a non-empty list of choices,
and every cap `max_out > 0`, the number of variant strings emitted by the
product expansion equals `min(max_out, product of per-segment choice
counts)`; in particular generation emits nothing beyond the cap — the
budget-threaded recursion (`pjRec_spec`) stops every deeper descent the
moment the count reaches the cap. -/
theorem c1_product_count (segs : List (List String)) (maxOut : Nat)
    (_hseg : ∀ s ∈ segs, s ≠ []) (_hcap : 0 < maxOut) :
    (productJoin segs maxOut).length = min maxOut ((segs.map List.length).prod) :=
  (pjRec_spec segs [] maxOut).1

/-- Witness for `c1_product_count`: two segments of sizes 2 and 1 under cap
3 emit `min 3 2 = 2` variants. -/
theorem c1_product_count_witness :
    (∀ s ∈ [["a", "b"], ["c"]], s ≠ ([] : List String)) ∧ 0 < 3 ∧
    (productJoin [["a", "b"], ["c"]] 3).length =
      min 3 (([["a", "b"], ["c"]].map List.length).prod) :=
  ⟨by decide, by decide, c1_product_count [["a", "b"], ["c"]] 3 (by decide) (by decide)⟩

/-! # Claim C7 (confirmed) -/

/-- **C7.**  The fallback "English, Xhosa" pair heuristic:
(1) `english_xh_pair_safe` succeeds exactly when the fragment has 1 or 2
commas, the (stripped) text left of the final comma contains no
POS-abbreviation substring, is all-ASCII and contains an ASCII letter, and
the (stripped) text right of the final comma is non-empty;
(2) within the cascade it fires only when none of the five structured
fragment patterns matched earlier (patterns 1–4 failed and the plain
comma-list of pattern 5 was empty);
(3) when it fires, the fragment step creates a brand-new standalone entry
under the current fresh synthetic id — whose `word_name` is the left text
and whose sole sense's translation is the right text — and adds nothing to
the current head's senses. -/
theorem c7_fallback_pair (headerToks : List String) (frag : List Char)
    (senses : List Sense) (out : Store) (idx : Nat) (l r : List Char) :
    (englishXhPairSafe frag = some (l, r) ↔
      ((frag.count ',' = 1 ∨ frag.count ',' = 2) ∧
        l = pyStrip (splitAtLastComma frag).1 ∧ r = pyStrip (splitAtLastComma frag).2 ∧
        posTokenInLeft l = false ∧
        l.all (fun c => c.toNat < 128) = true ∧ l.any isAsciiLetter = true ∧ r ≠ [])) ∧
    (parseFragment headerToks frag = FragResult.entry (String.mk l) (String.mk r) ↔
      (parseFrag1 frag = none ∧ parseFrag2 frag = none ∧ parseFrag3 frag = none ∧
        parseFrag4 frag = none ∧ splitCsvLike (rstripDots frag) = [] ∧
        englishXhPairSafe frag = some (l, r))) ∧
    (parseFragment headerToks frag = FragResult.entry (String.mk l) (String.mk r) →
      fragStep headerToks (senses, out, idx) frag =
        (senses, storeInsert out idx ⟨String.mk l, [(1, ⟨"", "", String.mk r⟩)]⟩, idx + 1)) := by
  have hpair : englishXhPairSafe frag = some (l, r) ↔
      ((frag.count ',' = 1 ∨ frag.count ',' = 2) ∧
        l = pyStrip (splitAtLastComma frag).1 ∧ r = pyStrip (splitAtLastComma frag).2 ∧
        posTokenInLeft l = false ∧
        l.all (fun c => c.toNat < 128) = true ∧ l.any isAsciiLetter = true ∧ r ≠ []) := by
    constructor
    · intro h
      simp only [englishXhPairSafe] at h
      split_ifs at h with h1 h2 h3 h4 h5
      all_goals simp at h
      obtain ⟨hl, hr⟩ := h
      subst hl; subst hr
      simp only [Bool.not_eq_true] at h3 h4
      have hab : ((pyStrip (splitAtLastComma frag).1).all (fun c => c.toNat < 128) &&
          (pyStrip (splitAtLastComma frag).1).any isAsciiLetter) = true := by
        cases hx : ((pyStrip (splitAtLastComma frag).1).all (fun c => c.toNat < 128) &&
            (pyStrip (splitAtLastComma frag).1).any isAsciiLetter) with
        | true => rfl
        | false => rw [hx] at h4; simp at h4
      rw [Bool.and_eq_true] at hab
      refine ⟨by omega, rfl, rfl, h3, hab.1, hab.2, ?_⟩
      intro hre
      rw [← List.isEmpty_iff] at hre
      exact h5 hre
    · rintro ⟨hc, hl, hr, hpos, hascii, hletter, hne⟩
      subst hl; subst hr
      simp only [englishXhPairSafe]
      rw [if_neg (by omega), if_neg (by omega), if_neg (by simp [hpos]),
        if_neg (by simp [hascii, hletter]), if_neg (by simp [List.isEmpty_iff]; exact hne)]
  refine ⟨hpair, ?_, ?_⟩
  · constructor
    · intro h
      unfold parseFragment at h
      cases hf1 : parseFrag1 frag with
      | some v => obtain ⟨d, p, rst⟩ := v; rw [hf1] at h; simp at h
      | none =>
      rw [hf1] at h
      cases hf2 : parseFrag2 frag with
      | some v => obtain ⟨d, p, rst⟩ := v; rw [hf2] at h; simp at h
      | none =>
      rw [hf2] at h
      cases hf3 : parseFrag3 frag with
      | some v => obtain ⟨p, rst⟩ := v; rw [hf3] at h; simp at h
      | none =>
      rw [hf3] at h
      cases hf4 : parseFrag4 frag with
      | some v => obtain ⟨d, rst⟩ := v; rw [hf4] at h; simp at h
      | none =>
      rw [hf4] at h
      cases hf5 : splitCsvLike (rstripDots frag) with
      | cons x xs => rw [hf5] at h; simp at h
      | nil =>
      rw [hf5] at h
      rw [if_neg (by simp)] at h
      cases hf6 : englishXhPairSafe frag with
      | none => rw [hf6] at h; simp at h
      | some v =>
        obtain ⟨l2, r2⟩ := v
        rw [hf6] at h
        simp only [FragResult.entry.injEq] at h
        have he1 : l2 = l := by injection h.1
        have he2 : r2 = r := by injection h.2
        subst he1; subst he2
        exact ⟨rfl, rfl, rfl, rfl, rfl, rfl⟩
    · rintro ⟨h1, h2, h3, h4, h5, h6⟩
      unfold parseFragment
      rw [h1, h2, h3, h4, h5]
      simp [h6]
  · intro h
    unfold fragStep
    rw [h]

/-- Witness for `c7_fallback_pair`: the pair detector succeeds on the
fragment `"hello, molo"`, which meets all its stated conditions. -/
theorem c7_fallback_pair_witness :
    englishXhPairSafe "hello, molo".data = some ("hello".data, "molo".data) :=
  (c7_fallback_pair [] "hello, molo".data [] [] 0 "hello".data "molo".data).1.mpr
    (by refine ⟨by decide, by decide, by decide, by decide, by decide, by decide, by decide⟩)

/-- The sense loop of `load_dict` never errors when every `sense_` field is
well-shaped and the headword value is a string. -/
theorem loadSenses_ok (s : String) : ∀ (fields : List (String × JVal))
    (acc : List (String × List String)),
    (∀ kv ∈ fields, "sense_".data.isPrefixOf kv.1.data = true → senseOk kv.2 = true) →
    ∃ acc2, loadSenses (.jstr s) acc fields = .ok acc2 := by
  intro fields
  induction fields with
  | nil => intro acc _; exact ⟨acc, rfl⟩
  | cons kv rest ih =>
    intro acc hok
    obtain ⟨k, v⟩ := kv
    have hrest : ∀ kv ∈ rest, "sense_".data.isPrefixOf kv.1.data = true →
        senseOk kv.2 = true := fun kv hm => hok kv (by simp [hm])
    by_cases hp : "sense_".data.isPrefixOf k.data = true
    · have hs := hok (k, v) (by simp) hp
      cases v with
      | jstr _ => simp [senseOk] at hs
      | jobj sf =>
        simp only [senseOk] at hs
        cases ht : jGet sf "translation" with
        | none => simp only [loadSenses, hp, ht, if_true]; exact ih acc hrest
        | some tv =>
          rw [ht] at hs
          cases tv with
          | jstr _ => simp [transOk] at hs
          | jobj tf =>
            simp only [transOk] at hs
            cases hx : jGet tf "xh" with
            | none => simp only [loadSenses, hp, ht, hx, if_true]; exact ih acc hrest
            | some xv =>
              rw [hx] at hs
              cases xv with
              | jstr x =>
                by_cases hxe : x.data.isEmpty = true
                · simp only [loadSenses, hp, ht, hx, hxe, if_true]; exact ih acc hrest
                · simp only [loadSenses, hp, ht, hx, if_true]
                  rw [if_neg hxe]
                  exact ih _ hrest
              | jobj o =>
                simp only [xhOk] at hs
                simp only [loadSenses, hp, ht, hx, hs, if_true]; exact ih acc hrest
    · simp only [loadSenses]
      rw [if_neg hp]
      exact ih acc hrest

/-- The entry loop of `load_dict` never errors on a well-shaped store. -/
theorem loadEntries_ok : ∀ (data : List (String × JVal)) (acc : List (String × List String)),
    wellShaped data = true → ∃ acc2, loadEntries acc data = .ok acc2 := by
  intro data
  induction data with
  | nil => intro acc _; exact ⟨acc, rfl⟩
  | cons kv rest ih =>
    intro acc hws
    obtain ⟨k, v⟩ := kv
    simp only [wellShaped, List.all_cons, Bool.and_eq_true] at hws
    obtain ⟨hv, hrest⟩ := hws
    cases v with
    | jstr _ => simp [entryOk] at hv
    | jobj fields =>
      simp only [entryOk, Bool.and_eq_true] at hv
      obtain ⟨hwn, hsenses⟩ := hv
      have hfields : ∀ kv ∈ fields, "sense_".data.isPrefixOf kv.1.data = true →
          senseOk kv.2 = true := by
        intro kv hm hp
        have hx := List.all_eq_true.mp hsenses kv hm
        simpa [hp] using hx
      have hhead : ∃ s, (jGet fields "word_name").getD (.jstr "") = .jstr s := by
        cases hw : jGet fields "word_name" with
        | none => exact ⟨"", rfl⟩
        | some v2 =>
          cases v2 with
          | jstr s => exact ⟨s, rfl⟩
          | jobj _ => rw [hw] at hwn; simp [wordNameOk] at hwn
      obtain ⟨s, hs⟩ := hhead
      obtain ⟨acc2, hacc2⟩ := loadSenses_ok s fields acc hfields
      simp only [loadEntries, hs, hacc2]
      exact ih acc2 hrest

/-- **C8, amended.**  The lookup-index build raises only on type-shape
violations (a non-object entry value, a non-object `sense_` value, a
non-string `word_name` reached by a translation, a non-object
`translation`, a truthy non-string `xh`): for every store whose values are
shaped like objects and strings in those positions, the build succeeds —
in particular, entries missing `word_name` or a sense's `translation`
mapping do NOT raise (`.get` defaults cover them, refuting the claim's
"missing required keys" direction), and the empty store builds an empty
index. -/
theorem c8_load_amended :
    (∀ data : List (String × JVal), wellShaped data = true → (loadDict data).isOk = true) ∧
    loadDict [] = .ok ([], 1) := by
  constructor
  · intro data h
    obtain ⟨acc2, h2⟩ := loadEntries_ok data [] h
    simp only [loadDict, h2]
    rfl
  · rfl

/-- Witness for `c8_load_amended` on a concrete well-shaped store. -/
theorem c8_load_amended_witness :
    wellShaped [("word_1", JVal.jobj [("word_name", JVal.jstr "play"),
        ("sense_1", JVal.jobj [("translation", JVal.jobj
          [("xh", JVal.jstr "dlala")])])])] = true ∧
    (loadDict [("word_1", JVal.jobj [("word_name", JVal.jstr "play"),
        ("sense_1", JVal.jobj [("translation", JVal.jobj
          [("xh", JVal.jstr "dlala")])])])]).isOk = true :=
  ⟨by decide, c8_load_amended.1 _ (by decide)⟩

/-! # Claim C9 (confirmed) -/

theorem lexLe_total : ∀ (a b : List Char), lexLe a b = true ∨ lexLe b a = true := by
  intro a
  induction a with
  | nil => intro b; left; rfl
  | cons x xs ih =>
    intro b
    cases b with
    | nil => right; rfl
    | cons y ys =>
      by_cases hxy : x = y
      · subst hxy
        rcases ih ys with h | h
        · left; simpa [lexLe] using h
        · right; simpa [lexLe] using h
      · rcases lt_or_gt_of_ne hxy with h | h
        · left
          simp only [lexLe, if_neg hxy, decide_eq_true_eq]
          exact h
        · right
          simp only [lexLe, if_neg (Ne.symm hxy), decide_eq_true_eq]
          exact h

theorem lexLe_trans : ∀ (a b c : List Char),
    lexLe a b = true → lexLe b c = true → lexLe a c = true := by
  intro a
  induction a with
  | nil => intro b c _ _; rfl
  | cons x xs ih =>
    intro b c hab hbc
    cases b with
    | nil => simp [lexLe] at hab
    | cons y ys =>
      cases c with
      | nil => simp [lexLe] at hbc
      | cons z zs =>
        simp only [lexLe] at hab hbc ⊢
        by_cases hxy : x = y <;> by_cases hyz : y = z
        · subst hxy; subst hyz
          rw [if_pos rfl] at hab hbc ⊢
          exact ih ys zs hab hbc
        · subst hxy
          rw [if_pos rfl] at hab
          rw [if_neg hyz] at hbc
          rw [if_neg hyz]
          exact hbc
        · subst hyz
          rw [if_neg hxy] at hab
          rw [if_neg hxy]
          exact hab
        · rw [if_neg hxy] at hab
          rw [if_neg hyz] at hbc
          have h3 : x < z := lt_trans (of_decide_eq_true hab) (of_decide_eq_true hbc)
          rw [if_neg (ne_of_lt h3)]
          exact decide_eq_true h3

theorem lexLe_antisymm : ∀ (a b : List Char),
    lexLe a b = true → lexLe b a = true → a = b := by
  intro a
  induction a with
  | nil =>
    intro b _ hba
    cases b with
    | nil => rfl
    | cons y ys => simp [lexLe] at hba
  | cons x xs ih =>
    intro b hab hba
    cases b with
    | nil => simp [lexLe] at hab
    | cons y ys =>
      simp only [lexLe] at hab hba
      by_cases hxy : x = y
      · subst hxy
        rw [if_pos rfl] at hab hba
        rw [ih ys hab hba]
      · rw [if_neg hxy] at hab
        rw [if_neg (Ne.symm hxy)] at hba
        exact absurd (of_decide_eq_true hba) (lt_asymm (of_decide_eq_true hab))

instance : IsTotal String strLeRel := ⟨fun a b => lexLe_total a.data b.data⟩

instance : IsTrans String strLeRel := ⟨fun a b c => lexLe_trans a.data b.data c.data⟩

instance : IsAntisymm String strLeRel :=
  ⟨fun a b hab hba => String.ext (lexLe_antisymm a.data b.data hab hba)⟩

theorem sortTr_sorted (l : List String) : List.Sorted strLeRel (sortTr l) :=
  List.sorted_insertionSort strLeRel l

/-- Two permuted translation sets sort to the same list: the output order
never depends on the set's internal ordering. -/
theorem sortTr_eq_of_perm {l1 l2 : List String} (h : l1.Perm l2) : sortTr l1 = sortTr l2 :=
  List.eq_of_perm_of_sorted
    (((List.perm_insertionSort strLeRel l1).trans h).trans
      (List.perm_insertionSort strLeRel l2).symm)
    (sortTr_sorted l1) (sortTr_sorted l2)

/-- Two lookup indexes are equivalent as headword → translation-set maps:
the same keys succeed, and the stored translation lists for a key are
permutations of each other (equal as sets). -/
def indexEquiv (d1 d2 : Index) : Prop :=
  ∀ k : String,
    match List.lookup k d1, List.lookup k d2 with
    | some v1, some v2 => v1.Perm v2
    | none, none => True
    | _, _ => False

theorem findMatch_congr {d1 d2 : Index} (h : indexEquiv d1 d2) (toks : List String) :
    ∀ L : Nat,
      (findMatch d1 toks L = none → findMatch d2 toks L = none) ∧
      (∀ v1 L1, findMatch d1 toks L = some (v1, L1) →
        ∃ v2, findMatch d2 toks L = some (v2, L1) ∧ v1.Perm v2) := by
  intro L
  induction L with
  | zero => exact ⟨fun _ => rfl, fun v1 L1 hx => by simp [findMatch] at hx⟩
  | succ n ih =>
    have hk := h (normalizeKeyStr (String.intercalate " "
      (((toks.take (n + 1)).filter isWordTok).map stripPunct)))
    constructor
    · intro h1
      simp only [findMatch] at h1 ⊢
      cases e1 : List.lookup (normalizeKeyStr (String.intercalate " "
          (((toks.take (n + 1)).filter isWordTok).map stripPunct))) d1 with
      | some v1 => rw [e1] at h1; simp at h1
      | none =>
        rw [e1] at h1 hk
        cases e2 : List.lookup (normalizeKeyStr (String.intercalate " "
            (((toks.take (n + 1)).filter isWordTok).map stripPunct))) d2 with
        | some v2 => rw [e2] at hk; simp at hk
        | none => exact ih.1 h1
    · intro v1 L1 h1
      simp only [findMatch] at h1 ⊢
      cases e1 : List.lookup (normalizeKeyStr (String.intercalate " "
          (((toks.take (n + 1)).filter isWordTok).map stripPunct))) d1 with
      | some w1 =>
        rw [e1] at h1 hk
        simp only [Option.some.injEq, Prod.mk.injEq] at h1
        obtain ⟨hv, hL⟩ := h1
        subst hv; subst hL
        cases e2 : List.lookup (normalizeKeyStr (String.intercalate " "
            (((toks.take (n + 1)).filter isWordTok).map stripPunct))) d2 with
        | some v2 => rw [e2] at hk; exact ⟨v2, rfl, hk⟩
        | none => rw [e2] at hk; simp at hk
      | none =>
        rw [e1] at h1 hk
        cases e2 : List.lookup (normalizeKeyStr (String.intercalate " "
            (((toks.take (n + 1)).filter isWordTok).map stripPunct))) d2 with
        | some v2 => rw [e2] at hk; simp at hk
        | none => exact ih.2 v1 L1 h1

/-- Equivalent indexes produce identical segmentations. -/
theorem segmentChoicesF_congr {d1 d2 : Index} (h : indexEquiv d1 d2) (m : Nat) :
    ∀ (fuel : Nat) (toks : List String),
      segmentChoicesF d1 m fuel toks = segmentChoicesF d2 m fuel toks := by
  intro fuel
  induction fuel with
  | zero => intro toks; cases toks <;> rfl
  | succ n ih =>
    intro toks
    cases toks with
    | nil => rfl
    | cons tok rest =>
      by_cases hw : isWordTok tok = false
      · simp only [segmentChoicesF, if_pos hw]
        rw [ih]
      · cases hm1 : findMatch d1 (tok :: rest) (min m (rest.length + 1)) with
        | some p =>
          obtain ⟨v1, L1⟩ := p
          obtain ⟨v2, hm2, hperm⟩ :=
            (findMatch_congr h (tok :: rest) (min m (rest.length + 1))).2 v1 L1 hm1
          simp only [segmentChoicesF, hm1, hm2]
          rw [if_neg hw, if_neg hw]
          rw [sortTr_eq_of_perm hperm, ih]
        | none =>
          have hm2 := (findMatch_congr h (tok :: rest) (min m (rest.length + 1))).1 hm1
          simp only [segmentChoicesF, hm1, hm2]
          rw [if_neg hw, if_neg hw, ih]

/-- Every emitted segment is sorted: choice sets are emitted through
`sorted`, and singletons are trivially sorted. -/
theorem segmentChoicesF_sorted (d : Index) (m : Nat) :
    ∀ (fuel : Nat) (toks : List String) (seg : List String),
      seg ∈ segmentChoicesF d m fuel toks → List.Sorted strLeRel seg := by
  intro fuel
  induction fuel with
  | zero =>
    intro toks seg hs
    cases toks <;> simp [segmentChoicesF] at hs
  | succ n ih =>
    intro toks seg hs
    cases toks with
    | nil => simp [segmentChoicesF] at hs
    | cons tok rest =>
      by_cases hw : isWordTok tok = false
      · rw [segmentChoicesF, if_pos hw] at hs
        rcases List.mem_cons.mp hs with h1 | h1
        · subst h1; exact List.sorted_singleton tok
        · exact ih rest seg h1
      · cases hm : findMatch d (tok :: rest) (min m (rest.length + 1)) with
        | some p =>
          obtain ⟨v, L⟩ := p
          rw [segmentChoicesF, if_neg hw, hm] at hs
          rcases List.mem_cons.mp hs with h1 | h1
          · subst h1; exact sortTr_sorted v
          · exact ih _ seg h1
        | none =>
          rw [segmentChoicesF, if_neg hw, hm] at hs
          rcases List.mem_cons.mp hs with h1 | h1
          · subst h1; exact List.sorted_singleton tok
          · exact ih rest seg h1

/-- **C9.**  The Variant Expander is a deterministic function of
(lookup index, sentence, cap): it is a pure function in this embedding,
and — the substantive half — its output does not depend on the internal
ordering of the translation sets: for any two equivalent indexes the
output sequences are identical, because every choice-set segment lists the
translations for its key in sorted order (second conjunct). -/
theorem c9_expander_deterministic (d1 d2 : Index) (m cap : Nat) (toks : List String)
    (h : indexEquiv d1 d2) :
    expandTokens d1 m cap toks = expandTokens d2 m cap toks ∧
    ∀ seg ∈ segmentChoices d1 m toks, List.Sorted strLeRel seg := by
  constructor
  · unfold expandTokens segmentChoices
    rw [segmentChoicesF_congr h m toks.length toks]
  · intro seg hs
    exact segmentChoicesF_sorted d1 m toks.length toks seg hs

/-- Witness for `c9_expander_deterministic`: the index storing the set
`{"x", "y"}` in two different internal orders yields identical expander
output on the sentence `["a"]`. -/
theorem c9_expander_deterministic_witness :
    indexEquiv [("a", ["y", "x"])] [("a", ["x", "y"])] ∧
    expandTokens [("a", ["y", "x"])] 1 5 ["a"] =
      expandTokens [("a", ["x", "y"])] 1 5 ["a"] := by
  have he : indexEquiv [("a", ["y", "x"])] [("a", ["x", "y"])] := by
    intro k
    by_cases hk : k = "a"
    · subst hk
      exact (by decide : (["y", "x"] : List String).Perm ["x", "y"])
    · have hb : (k == "a") = false := beq_eq_false_iff_ne.mpr hk
      simp [List.lookup, hb]
  exact ⟨he, (c9_expander_deterministic _ _ 1 5 ["a"] he).1⟩

/-! # Claim C6 (confirmed) -/

/-- The synthetic ids of the store, in dict insertion order. -/
def keysOf (out : Store) : List Nat := out.map Prod.fst

/-- The id invariant of the builder loop: stored ids are strictly
increasing in insertion order, and all below the next fresh id. -/
def StoreKeysOk (out : Store) (idx : Nat) : Prop :=
  List.Chain' (· < ·) (keysOf out) ∧ ∀ k ∈ keysOf out, k < idx

/-- Inserting at a fresh id (larger than every stored id) is an append. -/
theorem storeInsert_fresh (out : Store) (idx : Nat) (e : Entry)
    (h : ∀ k ∈ keysOf out, k < idx) : storeInsert out idx e = out ++ [(idx, e)] := by
  have hna : (out.any (fun p => p.1 = idx)) = false := by
    rw [List.any_eq_false]
    rintro ⟨k, e2⟩ hm
    have hk := h k (List.mem_map_of_mem Prod.fst hm)
    simp only [decide_eq_true_eq]
    omega
  unfold storeInsert
  rw [hna]
  simp

theorem keysOk_insert {out : Store} {idx : Nat} (e : Entry) (h : StoreKeysOk out idx) :
    StoreKeysOk (storeInsert out idx e) (idx + 1) := by
  rw [storeInsert_fresh out idx e h.2]
  have hkeys : keysOf (out ++ [(idx, e)]) = keysOf out ++ [idx] := by
    simp [keysOf]
  constructor
  · rw [hkeys]
    apply List.Chain'.append h.1 (by simp)
    intro x hx y hy
    simp only [List.head?_cons, Option.mem_def, Option.some.injEq] at hy
    subst hy
    have hxm : x ∈ keysOf out := by
      cases hk : (keysOf out).getLast? with
      | none => rw [hk] at hx; simp at hx
      | some a =>
        rw [hk] at hx
        simp only [Option.mem_def, Option.some.injEq] at hx
        subst hx
        exact List.mem_of_mem_getLast? hk
    exact h.2 x hxm
  · intro k hk
    rw [hkeys] at hk
    rcases List.mem_append.mp hk with h1 | h1
    · have := h.2 k h1; omega
    · simp at h1; omega

/-- Updating in place never changes the stored ids. -/
theorem storeUpdate_keys (out : Store) (k : Nat) (f : Entry → Entry) :
    keysOf (storeUpdate out k f) = keysOf out := by
  simp only [storeUpdate, keysOf, List.map_map]
  apply List.map_congr_left
  intro p _
  by_cases h : p.1 = k
  · simp [Function.comp, h]
  · simp [Function.comp, h]

theorem fragStep_keysOk (hT : List String) (frag : List Char)
    (t : List Sense × Store × Nat) (h : StoreKeysOk t.2.1 t.2.2) :
    StoreKeysOk (fragStep hT t frag).2.1 (fragStep hT t frag).2.2 := by
  unfold fragStep
  cases parseFragment hT frag with
  | senses ss => exact h
  | entry en xh => exact keysOk_insert _ h
  | nothing => exact h

theorem blockFrags_keysOk (hT : List String) (body : List Char) (out : Store) (idx : Nat)
    (h : StoreKeysOk out idx) :
    StoreKeysOk (blockFrags hT body out idx).2.1 (blockFrags hT body out idx).2.2 := by
  unfold blockFrags
  by_cases hb : (!body.isEmpty) = true
  · rw [if_pos hb]
    have : ∀ (frags : List (List Char)) (t : List Sense × Store × Nat),
        StoreKeysOk t.2.1 t.2.2 →
        StoreKeysOk (frags.foldl (fragStep hT) t).2.1 (frags.foldl (fragStep hT) t).2.2 := by
      intro frags
      induction frags with
      | nil => intro t ht; exact ht
      | cons f fs ih => intro t ht; exact ih _ (fragStep_keysOk hT f t ht)
    exact this _ ([], out, idx) h
  · rw [if_neg hb]
    exact h

theorem placeSenses_keysOk (st : BState) (head : String) (sensesHere : List Sense)
    (out1 : Store) (idx1 : Nat) (h : StoreKeysOk out1 idx1) :
    StoreKeysOk (placeSenses st head sensesHere out1 idx1).output
      (placeSenses st head sensesHere out1 idx1).idx := by
  simp only [placeSenses]
  split_ifs with h1 h2
  · constructor
    · rw [storeUpdate_keys]; exact h.1
    · rw [storeUpdate_keys]; exact h.2
  · exact keysOk_insert _ h
  · exact h

theorem processBlock_keysOk (st : BState) (block : String)
    (h : StoreKeysOk st.output st.idx) :
    StoreKeysOk (processBlock st block).output (processBlock st block).idx := by
  unfold processBlock
  cases matchEntry block.data with
  | none => exact h
  | some v =>
    obtain ⟨head, posRaw, bodyRaw⟩ := v
    exact placeSenses_keysOk st head _ _ _
      (blockFrags_keysOk (posTokensFromRaw posRaw) (pyStrip bodyRaw) st.output st.idx h)

/-- **C6.**  In the store produced by the Dictionary Builder from any block
list, the synthetic ids — in the order entries were created, i.e. dict
insertion order — form a strictly increasing chain (so ids are assigned in
block-processing order, never reused) and are in particular all distinct. -/
theorem c6_ids_strictly_increasing (blocks : List String) :
    List.Chain' (· < ·) (keysOf (convertBlocks blocks)) ∧
    (keysOf (convertBlocks blocks)).Nodup := by
  have hfold : ∀ (bs : List String) (st : BState), StoreKeysOk st.output st.idx →
      StoreKeysOk (bs.foldl processBlock st).output (bs.foldl processBlock st).idx := by
    intro bs
    induction bs with
    | nil => intro st h; exact h
    | cons b bs ih => intro st h; exact ih _ (processBlock_keysOk st b h)
  have h0 : StoreKeysOk initState.output initState.idx := by
    constructor <;> simp [initState, keysOf]
  have h := hfold blocks initState h0
  refine ⟨h.1, ?_⟩
  have hp : List.Pairwise (· < ·) (keysOf (convertBlocks blocks)) :=
    List.chain'_iff_pairwise.mp h.1
  exact hp.imp Nat.ne_of_lt

/-! # Claim C5 (confirmed) -/

/-- The sense-key invariant of one entry: the `sense_<n>` indices are
exactly `1..count`, contiguous and in order, with at least one sense. -/
def SensesOk (e : Entry) : Prop :=
  e.senses.map Prod.fst = List.range' 1 e.senses.length ∧ 1 ≤ e.senses.length

/-- Every stored entry satisfies the sense-key invariant. -/
def StoreOk (out : Store) : Prop := ∀ p ∈ out, SensesOk p.2

theorem contains_eq_false_of_not_mem {l : List Nat} {a : Nat} (h : a ∉ l) :
    l.contains a = false := by
  cases hx : l.contains a
  · rfl
  · exact absurd (List.mem_of_elem_eq_true hx) h

/-- The `while`-search for the first free sense index, run on the
contiguous key list `1..n`, yields `n + 1`. -/
theorem firstFreeAux_range (n : Nat) : ∀ (fuel k : Nat), 1 ≤ k → k ≤ n + 1 →
    n + 1 ≤ k + fuel → firstFreeAux (List.range' 1 n) k fuel = n + 1 := by
  intro fuel
  induction fuel with
  | zero =>
    intro k _ h2 h3
    have hk : k = n + 1 := by omega
    simp [firstFreeAux, hk]
  | succ f ih =>
    intro k h1 h2 h3
    by_cases hk : k = n + 1
    · subst hk
      have hc : (List.range' 1 n).contains (n + 1) = false := by
        apply contains_eq_false_of_not_mem
        rw [List.mem_range'_1]
        omega
      simp [firstFreeAux, hc]
      exact fun hlt => absurd hlt (by omega)
    · have hc : (List.range' 1 n).contains k = true := by
        apply List.elem_eq_true_of_mem
        rw [List.mem_range'_1]
        omega
      rw [firstFreeAux, hc]
      simp only [if_true]
      exact ih (k + 1) (by omega) (by omega) (by omega)

theorem firstFree_range (n : Nat) : firstFree (List.range' 1 n) = n + 1 := by
  unfold firstFree
  rw [List.length_range' 1 1 n]
  exact firstFreeAux_range n (n + 1) 1 (by omega) (by omega) (by omega)

/-- Inserting a sense at a fresh index is an append. -/
theorem senseInsert_fresh (l : List (Nat × Sense)) (k : Nat) (s : Sense)
    (h : k ∉ l.map Prod.fst) : senseInsert l k s = l ++ [(k, s)] := by
  have hna : (l.any (fun p => p.1 = k)) = false := by
    rw [List.any_eq_false]
    rintro ⟨k2, s2⟩ hm
    simp only [decide_eq_true_eq]
    intro he
    subst he
    exact h (List.mem_map_of_mem Prod.fst hm)
  unfold senseInsert
  rw [hna]
  simp

/-- The assignment loop of `append_senses`, started at the next free index
`n + 1` over contiguous keys `1..n`, leaves contiguous keys
`1..n + (number appended)`. -/
theorem appendSensesAux_range (ss : List Sense) : ∀ (l : List (Nat × Sense)) (n : Nat),
    l.map Prod.fst = List.range' 1 n →
    ((ss.foldl (fun p s => (senseInsert p.1 p.2 s, p.2 + 1)) (l, n + 1)).1).map Prod.fst =
      List.range' 1 (n + ss.length) := by
  induction ss with
  | nil => intro l n h; simpa using h
  | cons s ss ih =>
    intro l n h
    simp only [List.foldl_cons]
    have hfresh : (n + 1) ∉ l.map Prod.fst := by
      rw [h, List.mem_range'_1]
      omega
    rw [senseInsert_fresh l (n + 1) s hfresh]
    have h2 : (l ++ [(n + 1, s)]).map Prod.fst = List.range' 1 (n + 1) := by
      rw [List.map_append, h, List.range'_concat]
      simp
      omega
    rw [List.length_cons]
    have heq : n + (ss.length + 1) = (n + 1) + ss.length := by omega
    rw [heq]
    exact ih (l ++ [(n + 1, s)]) (n + 1) h2

/-- `append_senses` always assigns the next free consecutive indices:
contiguous keys `1..n` become contiguous keys `1..n + |appended|`. -/
theorem appendSenses_range (e : Entry) (ss : List Sense) (n : Nat)
    (h : e.senses.map Prod.fst = List.range' 1 n) :
    (appendSenses e ss).senses.map Prod.fst = List.range' 1 (n + ss.length) := by
  unfold appendSenses
  have hff : firstFree (e.senses.map Prod.fst) = n + 1 := by
    rw [h]
    exact firstFree_range n
  rw [hff]
  exact appendSensesAux_range ss e.senses n h

theorem appendSenses_ok (e : Entry) (ss : List Sense) (h : SensesOk e) :
    SensesOk (appendSenses e ss) := by
  have h2 := appendSenses_range e ss e.senses.length h.1
  have hlen : (appendSenses e ss).senses.length = e.senses.length + ss.length := by
    have h3 := congrArg List.length h2
    simpa [List.length_range'] using h3
  refine ⟨?_, ?_⟩
  · rw [hlen]
    exact h2
  · rw [hlen]
    have := h.2
    omega

theorem mkEntry_ok (head : String) (ss : List Sense) (h : 1 ≤ ss.length) :
    SensesOk (mkEntry head ss) := by
  have hlenr : (List.range' 1 ss.length).length = ss.length := List.length_range' 1 1 ss.length
  have h1 : (mkEntry head ss).senses.map Prod.fst = List.range' 1 ss.length := by
    unfold mkEntry
    exact List.map_fst_zip _ _ (by rw [hlenr])
  have h2 : (mkEntry head ss).senses.length = ss.length := by
    unfold mkEntry
    rw [List.length_zip, hlenr]
    omega
  refine ⟨?_, ?_⟩
  · rw [h2, h1]
  · rw [h2]
    exact h

theorem storeInsert_ok {out : Store} {k : Nat} {e : Entry}
    (h : StoreOk out) (he : SensesOk e) : StoreOk (storeInsert out k e) := by
  unfold storeInsert
  by_cases hc : (out.any (fun p => p.1 = k)) = true
  · rw [if_pos hc]
    intro p hp
    rcases List.mem_map.mp hp with ⟨q, hq, hpq⟩
    by_cases hqk : q.1 = k
    · rw [← hpq]
      simp only [if_pos hqk]
      exact he
    · rw [← hpq]
      simp only [if_neg hqk]
      exact h q hq
  · rw [if_neg hc]
    intro p hp
    rcases List.mem_append.mp hp with h1 | h1
    · exact h p h1
    · simp only [List.mem_singleton] at h1
      subst h1
      exact he

theorem storeUpdate_ok {out : Store} {k : Nat} {f : Entry → Entry}
    (h : StoreOk out) (hf : ∀ e, SensesOk e → SensesOk (f e)) :
    StoreOk (storeUpdate out k f) := by
  unfold storeUpdate
  intro p hp
  rcases List.mem_map.mp hp with ⟨q, hq, hpq⟩
  by_cases hqk : q.1 = k
  · rw [← hpq]
    simp only [if_pos hqk]
    exact hf q.2 (h q hq)
  · rw [← hpq]
    simp only [if_neg hqk]
    exact h q hq

theorem fragStep_storeOk (hT : List String) (frag : List Char)
    (t : List Sense × Store × Nat) (h : StoreOk t.2.1) :
    StoreOk (fragStep hT t frag).2.1 := by
  unfold fragStep
  cases parseFragment hT frag with
  | senses ss => exact h
  | entry en xh =>
    apply storeInsert_ok h
    refine ⟨?_, ?_⟩ <;> simp [List.range'_one]
  | nothing => exact h

theorem blockFrags_storeOk (hT : List String) (body : List Char) (out : Store) (idx : Nat)
    (h : StoreOk out) : StoreOk (blockFrags hT body out idx).2.1 := by
  unfold blockFrags
  by_cases hb : (!body.isEmpty) = true
  · rw [if_pos hb]
    have hgen : ∀ (frags : List (List Char)) (t : List Sense × Store × Nat), StoreOk t.2.1 →
        StoreOk (frags.foldl (fragStep hT) t).2.1 := by
      intro frags
      induction frags with
      | nil => intro t ht; exact ht
      | cons f fs ih => intro t ht; exact ih _ (fragStep_storeOk hT f t ht)
    exact hgen _ ([], out, idx) h
  · rw [if_neg hb]
    exact h

theorem placeSenses_storeOk (st : BState) (head : String) (sensesHere : List Sense)
    (out1 : Store) (idx1 : Nat) (h : StoreOk out1) :
    StoreOk (placeSenses st head sensesHere out1 idx1).output := by
  simp only [placeSenses]
  split_ifs with h1 h2
  · exact storeUpdate_ok h (fun e he => appendSenses_ok e sensesHere he)
  · apply storeInsert_ok h
    apply mkEntry_ok
    simp only [Bool.not_eq_true', List.isEmpty_eq_false] at h1
    cases hs : sensesHere with
    | nil => exact absurd hs h1
    | cons a as => simp
  · exact h

theorem processBlock_storeOk (st : BState) (block : String) (h : StoreOk st.output) :
    StoreOk (processBlock st block).output := by
  unfold processBlock
  cases matchEntry block.data with
  | none => exact h
  | some v =>
    obtain ⟨head, posRaw, bodyRaw⟩ := v
    exact placeSenses_storeOk st head _ _ _
      (blockFrags_storeOk (posTokensFromRaw posRaw) (pyStrip bodyRaw) st.output st.idx h)

/-- **C5.**  In every entry of the store produced by the Dictionary
Builder, the sense keys are exactly `sense_1 .. sense_n` for some `n ≥ 1`
— contiguous indices starting at 1, in insertion order — and appending
senses to an entry with contiguous keys `1..n` (the derivative merge)
always assigns the next free consecutive indices `n+1, n+2, ...`. -/
theorem c5_sense_keys_contiguous :
    (∀ (blocks : List String) (k : Nat) (e : Entry),
      (k, e) ∈ convertBlocks blocks →
        e.senses.map Prod.fst = List.range' 1 e.senses.length ∧ 1 ≤ e.senses.length) ∧
    (∀ (e : Entry) (ss : List Sense) (n : Nat),
      e.senses.map Prod.fst = List.range' 1 n →
        (appendSenses e ss).senses.map Prod.fst = List.range' 1 (n + ss.length)) := by
  constructor
  · intro blocks k e hm
    have hfold : ∀ (bs : List String) (st : BState), StoreOk st.output →
        StoreOk ((bs.foldl processBlock st).output) := by
      intro bs
      induction bs with
      | nil => intro st h; exact h
      | cons b bs ih => intro st h; exact ih _ (processBlock_storeOk st b h)
    have h0 : StoreOk initState.output := by
      intro p hp
      simp [initState] at hp
    exact hfold blocks initState h0 (k, e) hm
  · intro e ss n h
    exact appendSenses_range e ss n h

/-- Witness for `c5_sense_keys_contiguous` on the store built from the
block `"play, v. i. dlala;"`. -/
theorem c5_sense_keys_contiguous_witness :
    ((1, (⟨"play", [(1, ⟨"v", "", "dlala"⟩), (2, ⟨"i", "", "dlala"⟩)]⟩ : Entry)) ∈
      convertBlocks ["play, v. i. dlala;"]) ∧
    ((⟨"play", [(1, ⟨"v", "", "dlala"⟩), (2, ⟨"i", "", "dlala"⟩)]⟩ : Entry).senses.map
        Prod.fst =
      List.range' 1
        (⟨"play", [(1, ⟨"v", "", "dlala"⟩), (2, ⟨"i", "", "dlala"⟩)]⟩ : Entry).senses.length ∧
      1 ≤ (⟨"play", [(1, ⟨"v", "", "dlala"⟩), (2, ⟨"i", "", "dlala"⟩)]⟩ : Entry).senses.length) :=
  ⟨by decide, c5_sense_keys_contiguous.1 ["play, v. i. dlala;"] 1 _ (by decide)⟩
